import Mathlib

/-!
Verification development for the EcoGuía repository: a shallow embedding of
the dialogue-tree backend (eco_guia_backend.py) and of the offline record
unifier (fix_fill_reservas.py), together with theorems settling the frozen
specification claims.

Strings are modelled as `List Char`.  The Python/Unicode character builtins
(str.lower, str.isspace, str.isalnum, unicodedata NFKD decomposition and
combining-class tests) are modelled by concrete tables covering the ASCII
repertoire plus the Spanish accented letters that occur in the repository
data; every other character is left fixed.
-/

/-- Whitespace predicate modelling Python str.isspace on the ASCII repertoire. -/
def pyIsSpace (c : Char) : Bool :=
  c == ' ' || c == '\t' || c == '\n' || c == '\r' || c == '\x0b' || c == '\x0c'

/-- Lowercase table modelling Python str.lower on the ASCII letters and the
accented uppercase letters occurring in the repository data. -/
def lowerTable : List (Char × Char) :=
  [('A', 'a'), ('B', 'b'), ('C', 'c'), ('D', 'd'), ('E', 'e'), ('F', 'f'),
   ('G', 'g'), ('H', 'h'), ('I', 'i'), ('J', 'j'), ('K', 'k'), ('L', 'l'),
   ('M', 'm'), ('N', 'n'), ('O', 'o'), ('P', 'p'), ('Q', 'q'), ('R', 'r'),
   ('S', 's'), ('T', 't'), ('U', 'u'), ('V', 'v'), ('W', 'w'), ('X', 'x'),
   ('Y', 'y'), ('Z', 'z'),
   ('Á', 'á'), ('É', 'é'), ('Í', 'í'), ('Ó', 'ó'), ('Ú', 'ú'), ('Ü', 'ü'),
   ('Ñ', 'ñ')]

/-- Per-character model of Python str.lower. -/
def pyLower (c : Char) : Char :=
  ((lowerTable.find? (fun p => p.1 == c)).map (fun p => p.2)).getD c

/-- Combining acute accent U+0301. -/
def combAcute : Char := Char.ofNat 0x301

/-- Combining tilde U+0303. -/
def combTilde : Char := Char.ofNat 0x303

/-- Combining diaeresis U+0308. -/
def combDiaer : Char := Char.ofNat 0x308

/-- Per-character NFKD decomposition table modelling
unicodedata.normalize applied with the NFKD form, on the accented letters
occurring in the repository data; all other characters decompose to
themselves. -/
def nfkdTable : List (Char × List Char) :=
  [('á', ['a', combAcute]), ('é', ['e', combAcute]), ('í', ['i', combAcute]),
   ('ó', ['o', combAcute]), ('ú', ['u', combAcute]), ('ü', ['u', combDiaer]),
   ('ñ', ['n', combTilde]),
   ('Á', ['A', combAcute]), ('É', ['E', combAcute]), ('Í', ['I', combAcute]),
   ('Ó', ['O', combAcute]), ('Ú', ['U', combAcute]), ('Ü', ['U', combDiaer]),
   ('Ñ', ['N', combTilde])]

/-- NFKD decomposition of one character. -/
def nfkdChar (c : Char) : List Char :=
  ((nfkdTable.find? (fun p => p.1 == c)).map (fun p => p.2)).getD [c]

/-- Combining-mark predicate modelling a nonzero unicodedata combining class:
the combining diacritical marks block U+0300 to U+036F. -/
def isCombining (c : Char) : Bool :=
  decide (0x300 ≤ c.toNat) && decide (c.toNat < 0x370)

/-- Alphanumeric predicate modelling Python str.isalnum on the ASCII
repertoire. -/
def pyIsAlnum (c : Char) : Bool := c.isAlpha || c.isDigit

/-- Drop trailing whitespace characters. -/
def dropTrail : List Char → List Char
  | [] => []
  | c :: cs =>
    let t := dropTrail cs
    if t.isEmpty && pyIsSpace c then [] else c :: t

/-- Model of Python str.strip: drop leading and trailing whitespace. -/
def pyStrip (l : List Char) : List Char := dropTrail (l.dropWhile pyIsSpace)

/-- Whether a word boundary follows: the string ends or starts with
whitespace. -/
def startsWithSpace : List Char → Bool
  | [] => true
  | c :: _ => pyIsSpace c

/-- Model of Python str.split with no separator: split on runs of whitespace,
producing no empty pieces.  Written as a structurally recursive right fold: a
whitespace character contributes nothing, and a non-whitespace character
starts a fresh word when the string ends or whitespace follows, and otherwise
extends the first word of the remainder. -/
def splitWs : List Char → List (List Char)
  | [] => []
  | c :: cs =>
    if pyIsSpace c then splitWs cs
    else if startsWithSpace cs then [c] :: splitWs cs
    else (c :: (splitWs cs).headD []) :: (splitWs cs).tail

/-- Model of joining a list of words with one space, as the Python idiom
joining the result of split. -/
def joinSp : List (List Char) → List Char
  | [] => []
  | [w] => w
  | w :: w' :: ws => w ++ ' ' :: joinSp (w' :: ws)

/-- Punctuation-folding pass of the backend normalizer, line 39 of
eco_guia_backend.py: every character that is not alphanumeric, whitespace,
hyphen or underscore becomes a single space. -/
def punctFold (l : List Char) : List Char :=
  l.map (fun c => if pyIsAlnum c || pyIsSpace c || c == '-' || c == '_' then c else ' ')

/-- Model of the function named with a single leading underscore, normalize
name, at lines 32 to 41 of eco_guia_backend.py.  A none argument models a
Python None; the empty list is also falsy, matching the initial guard. -/
def _normalize_name (s : Option (List Char)) : List Char :=
  match s with
  | none => []
  | some l =>
    if l.isEmpty then []
    else
      let s2 := (pyStrip l).map pyLower
      let s3 := s2.flatMap nfkdChar
      let s4 := s3.filter (fun d => !isCombining d)
      let s5 := punctFold s4
      joinSp (splitWs s5)

/-- Composite per-character action of the lower, NFKD and combining-strip
stages of the backend normalizer. -/
def charFold (c : Char) : List Char :=
  (nfkdChar (pyLower c)).filter (fun d => !isCombining d)

/-- A character fixed by the lower and NFKD stages. -/
def goodB (d : Char) : Bool := (pyLower d == d) && (nfkdChar d == [d])

theorem lowerOutputs_good :
    (lowerTable.all (fun p =>
      ((nfkdChar p.2).filter (fun d => !isCombining d)).all goodB)) = true := by
  decide

theorem nfkdOutputs_good :
    (nfkdTable.all (fun q =>
      (lowerTable.any (fun p => p.1 == q.1)) ||
        ((q.2.filter (fun d => !isCombining d)).all goodB))) = true := by
  decide

theorem charFold_good {c d : Char} (hd : d ∈ charFold c) :
    pyLower d = d ∧ nfkdChar d = [d] := by
  unfold charFold at hd
  cases hfl : lowerTable.find? (fun p => p.1 == c) with
  | some p =>
    have hp : p ∈ lowerTable := List.mem_of_find?_eq_some hfl
    have hlc : pyLower c = p.2 := by simp [pyLower, hfl]
    rw [hlc] at hd
    have h1 := (List.all_eq_true.mp lowerOutputs_good) p hp
    have h2 := (List.all_eq_true.mp h1) d hd
    simpa [goodB] using h2
  | none =>
    have hlc : pyLower c = c := by simp [pyLower, hfl]
    rw [hlc] at hd
    cases hfn : nfkdTable.find? (fun q => q.1 == c) with
    | some q =>
      have hq : q ∈ nfkdTable := List.mem_of_find?_eq_some hfn
      have hqc : q.1 = c := by simpa using List.find?_some hfn
      have hnc : nfkdChar c = q.2 := by simp [nfkdChar, hfn]
      rw [hnc] at hd
      have h1 := (List.all_eq_true.mp nfkdOutputs_good) q hq
      have hnotin : lowerTable.any (fun p => p.1 == q.1) = false := by
        rw [List.any_eq_false]
        intro p hp
        have := List.find?_eq_none.mp hfl p hp
        simpa [hqc] using this
      rw [hnotin] at h1
      simp at h1
      rw [List.mem_filter] at hd
      rcases h1 d hd.1 with h2 | h2
      · rw [h2] at hd
        simp at hd
      · simpa [goodB] using h2
    | none =>
      have hnc : nfkdChar c = [c] := by simp [nfkdChar, hfn]
      rw [hnc] at hd
      simp at hd
      rcases hd with ⟨hdc, _⟩
      subst hdc
      exact ⟨hlc, hnc⟩


theorem splitWs_cons_space {c : Char} {cs : List Char} (hc : pyIsSpace c = true) :
    splitWs (c :: cs) = splitWs cs := by
  rw [splitWs, if_pos hc]

theorem splitWs_cons_break {c : Char} {cs : List Char} (hc : pyIsSpace c = false)
    (hd : startsWithSpace cs = true) :
    splitWs (c :: cs) = [c] :: splitWs cs := by
  rw [splitWs, if_neg (by simp [hc]), if_pos hd]

theorem splitWs_cons_extend {c : Char} {cs w : List Char}
    {ws : List (List Char)} (hc : pyIsSpace c = false)
    (hd : startsWithSpace cs = false) (hrest : splitWs cs = w :: ws) :
    splitWs (c :: cs) = (c :: w) :: ws := by
  rw [splitWs, if_neg (by simp [hc]), if_neg (by simp [hd]), hrest]
  rfl

theorem splitWs_cons_extend_nil {c : Char} {cs : List Char}
    (hc : pyIsSpace c = false) (hd : startsWithSpace cs = false)
    (hrest : splitWs cs = []) : splitWs (c :: cs) = [[c]] := by
  rw [splitWs, if_neg (by simp [hc]), if_neg (by simp [hd]), hrest]
  rfl

theorem splitWs_words {l : List Char} :
    ∀ w ∈ splitWs l, w ≠ [] ∧ ∀ c ∈ w, pyIsSpace c = false := by
  induction l with
  | nil => intro w hw; simp [splitWs] at hw
  | cons c cs ih =>
    intro w hw
    by_cases hc : pyIsSpace c
    · rw [splitWs_cons_space hc] at hw
      exact ih w hw
    · have hc' : pyIsSpace c = false := by simpa using hc
      by_cases hd : startsWithSpace cs
      · rw [splitWs_cons_break hc' hd] at hw
        rcases List.mem_cons.mp hw with hw | hw
        · subst hw
          refine ⟨by simp, ?_⟩
          intro e he
          rcases List.mem_cons.mp he with he | he
          · subst he; exact hc'
          · simp at he
        · exact ih w hw
      · have hd' : startsWithSpace cs = false := by simpa using hd
        rcases hrest : splitWs cs with _ | ⟨w₁, ws₁⟩
        · rw [splitWs_cons_extend_nil hc' hd' hrest] at hw
          simp at hw
          subst hw
          refine ⟨by simp, ?_⟩
          intro e he
          rcases List.mem_cons.mp he with he | he
          · subst he; exact hc'
          · simp at he
        · rw [splitWs_cons_extend hc' hd' hrest] at hw
          have ihr := ih
          rw [hrest] at ihr
          rcases List.mem_cons.mp hw with hw | hw
          · subst hw
            have h1 := ihr w₁ (List.mem_cons_self w₁ ws₁)
            refine ⟨by simp, ?_⟩
            intro e he
            rcases List.mem_cons.mp he with he | he
            · subst he; exact hc'
            · exact h1.2 e he
          · exact ihr w (List.mem_cons_of_mem w₁ hw)

theorem splitWs_mem {l : List Char} :
    ∀ w ∈ splitWs l, ∀ c ∈ w, c ∈ l := by
  induction l with
  | nil => intro w hw; simp [splitWs] at hw
  | cons c cs ih =>
    intro w hw e he
    by_cases hc : pyIsSpace c
    · rw [splitWs_cons_space hc] at hw
      exact List.mem_cons_of_mem c (ih w hw e he)
    · have hc' : pyIsSpace c = false := by simpa using hc
      by_cases hd : startsWithSpace cs
      · rw [splitWs_cons_break hc' hd] at hw
        rcases List.mem_cons.mp hw with hw | hw
        · subst hw
          rcases List.mem_cons.mp he with he | he
          · subst he; exact List.mem_cons_self e cs
          · simp at he
        · exact List.mem_cons_of_mem c (ih w hw e he)
      · have hd' : startsWithSpace cs = false := by simpa using hd
        rcases hrest : splitWs cs with _ | ⟨w₁, ws₁⟩
        · rw [splitWs_cons_extend_nil hc' hd' hrest] at hw
          simp at hw
          subst hw
          rcases List.mem_cons.mp he with he | he
          · subst he; exact List.mem_cons_self e cs
          · simp at he
        · rw [splitWs_cons_extend hc' hd' hrest] at hw
          have ihr := ih
          rw [hrest] at ihr
          rcases List.mem_cons.mp hw with hw | hw
          · subst hw
            rcases List.mem_cons.mp he with he | he
            · subst he; exact List.mem_cons_self e cs
            · exact List.mem_cons_of_mem c
                (ihr w₁ (List.mem_cons_self w₁ ws₁) e he)
          · exact List.mem_cons_of_mem c
              (ihr w (List.mem_cons_of_mem w₁ hw) e he)

theorem splitWs_word_single {w : List Char} (hne : w ≠ [])
    (hnosp : ∀ c ∈ w, pyIsSpace c = false) : splitWs w = [w] := by
  induction w with
  | nil => exact absurd rfl hne
  | cons c cs ih =>
    have hc : pyIsSpace c = false := hnosp c (List.mem_cons_self c cs)
    rcases cs with _ | ⟨d, cs'⟩
    · rw [@splitWs_cons_break c [] hc rfl]
      rfl
    · have hd : pyIsSpace d = false := hnosp d (by simp)
      have ih' := ih (by simp) (fun e he => hnosp e (List.mem_cons_of_mem c he))
      rw [splitWs_cons_extend hc (by simp [startsWithSpace, hd]) ih']

theorem splitWs_word_append {w l : List Char} (hne : w ≠ [])
    (hnosp : ∀ c ∈ w, pyIsSpace c = false) :
    splitWs (w ++ ' ' :: l) = w :: splitWs l := by
  induction w with
  | nil => exact absurd rfl hne
  | cons c cs ih =>
    have hc : pyIsSpace c = false := hnosp c (List.mem_cons_self c cs)
    rcases cs with _ | ⟨d, cs'⟩
    · rw [List.cons_append, List.nil_append,
        @splitWs_cons_break c (' ' :: l) hc rfl,
        @splitWs_cons_space ' ' l rfl]
    · have hd : pyIsSpace d = false := hnosp d (by simp)
      have ih' := ih (by simp) (fun e he => hnosp e (List.mem_cons_of_mem c he))
      rw [List.cons_append]
      rw [splitWs_cons_extend hc (by simp [startsWithSpace, hd]) ih']

theorem splitWs_joinSp {ws : List (List Char)}
    (hws : ∀ w ∈ ws, w ≠ [] ∧ ∀ c ∈ w, pyIsSpace c = false) :
    splitWs (joinSp ws) = ws := by
  induction ws with
  | nil => rfl
  | cons w rest ih =>
    rcases hws w (List.mem_cons_self w rest) with ⟨hne, hnosp⟩
    rcases rest with _ | ⟨w', rest'⟩
    · rw [joinSp]
      exact splitWs_word_single hne hnosp
    · rw [joinSp, splitWs_word_append hne hnosp,
        ih (fun v hv => hws v (List.mem_cons_of_mem w hv))]

theorem dropTrail_of_nonspace {l : List Char}
    (h : ∀ c ∈ l, pyIsSpace c = false) : dropTrail l = l := by
  induction l with
  | nil => rfl
  | cons c cs ih =>
    rw [dropTrail]
    have hc : pyIsSpace c = false := h c (List.mem_cons_self c cs)
    simp [hc, ih (fun d hd => h d (List.mem_cons_of_mem c hd))]

theorem dropTrail_append {l r : List Char} (h : dropTrail r ≠ []) :
    dropTrail (l ++ r) = l ++ dropTrail r := by
  induction l with
  | nil => simp
  | cons c cs ih =>
    rw [List.cons_append, dropTrail, ih]
    have : (cs ++ dropTrail r).isEmpty = false := by
      rcases hd : dropTrail r with _ | _
      · exact absurd hd h
      · simp [hd]
    simp [this]

theorem joinSp_ne_nil {w : List Char} {ws : List (List Char)} (hw : w ≠ []) :
    joinSp (w :: ws) ≠ [] := by
  rcases ws with _ | ⟨w', rest⟩
  · simpa [joinSp] using hw
  · rw [joinSp]
    simp

theorem dropTrail_joinSp {ws : List (List Char)}
    (hws : ∀ w ∈ ws, w ≠ [] ∧ ∀ c ∈ w, pyIsSpace c = false) :
    dropTrail (joinSp ws) = joinSp ws := by
  induction ws with
  | nil => rfl
  | cons w rest ih =>
    rcases hws w (List.mem_cons_self w rest) with ⟨hne, hnosp⟩
    rcases rest with _ | ⟨w', rest'⟩
    · rw [joinSp]
      exact dropTrail_of_nonspace hnosp
    · have hrest := ih (fun v hv => hws v (List.mem_cons_of_mem w hv))
      have hw' : w' ≠ [] := (hws w' (by simp)).1
      have hJ : dropTrail (joinSp (w' :: rest')) ≠ [] := by
        rw [hrest]
        exact joinSp_ne_nil hw'
      have hne2 : joinSp (w' :: rest') ≠ [] := joinSp_ne_nil hw'
      have hJe : (joinSp (w' :: rest')).isEmpty = false := by
        rcases hd : joinSp (w' :: rest') with _ | _
        · exact absurd hd hne2
        · rfl
      have hsep : dropTrail (' ' :: joinSp (w' :: rest')) =
          ' ' :: joinSp (w' :: rest') := by
        rw [dropTrail, hrest]
        simp [hJe]
      rw [joinSp, dropTrail_append (by rw [hsep]; simp), hsep]

theorem pyStrip_joinSp {ws : List (List Char)}
    (hws : ∀ w ∈ ws, w ≠ [] ∧ ∀ c ∈ w, pyIsSpace c = false) :
    pyStrip (joinSp ws) = joinSp ws := by
  rcases ws with _ | ⟨w, rest⟩
  · rfl
  rcases hws w (List.mem_cons_self w rest) with ⟨hne, hnosp⟩
  rcases w with _ | ⟨c, cs⟩
  · exact absurd rfl hne
  have hc : pyIsSpace c = false := hnosp c (List.mem_cons_self c cs)
  unfold pyStrip
  have hdw : (joinSp ((c :: cs) :: rest)).dropWhile pyIsSpace =
      joinSp ((c :: cs) :: rest) := by
    rcases rest with _ | ⟨w', rest'⟩
    · rw [joinSp, List.dropWhile_cons]
      simp [hc]
    · rw [joinSp, List.cons_append, List.dropWhile_cons]
      simp [hc]
  rw [hdw]
  exact dropTrail_joinSp hws

theorem mem_joinSp {ws : List (List Char)} {c : Char} (hc : c ∈ joinSp ws) :
    c = ' ' ∨ ∃ w ∈ ws, c ∈ w := by
  induction ws with
  | nil => simp [joinSp] at hc
  | cons w rest ih =>
    rcases rest with _ | ⟨w', rest'⟩
    · rw [joinSp] at hc
      exact Or.inr ⟨w, by simp, hc⟩
    · rw [joinSp] at hc
      rcases List.mem_append.mp hc with h | h
      · exact Or.inr ⟨w, by simp, h⟩
      · rcases List.mem_cons.mp h with h | h
        · exact Or.inl h
        · rcases ih h with h' | ⟨v, hv, hcv⟩
          · exact Or.inl h'
          · exact Or.inr ⟨v, List.mem_cons_of_mem w hv, hcv⟩

theorem map_id_of_fix {l : List Char} {f : Char → Char}
    (h : ∀ c ∈ l, f c = c) : l.map f = l := by
  rw [List.map_congr_left h]
  simp

theorem flatMap_id_of_fix {l : List Char} {f : Char → List Char}
    (h : ∀ c ∈ l, f c = [c]) : l.flatMap f = l := by
  induction l with
  | nil => rfl
  | cons c cs ih =>
    rw [List.flatMap_cons, h c (List.mem_cons_self c cs),
      ih (fun d hd => h d (List.mem_cons_of_mem c hd))]
    rfl

theorem normalize_fix_of_words (ws : List (List Char))
    (hwords : ∀ w ∈ ws, w ≠ [] ∧ ∀ c ∈ w, pyIsSpace c = false)
    (hchar : ∀ w ∈ ws, ∀ c ∈ w, pyLower c = c ∧ nfkdChar c = [c] ∧
      isCombining c = false ∧
      (pyIsAlnum c || pyIsSpace c || c == '-' || c == '_') = true) :
    _normalize_name (some (joinSp ws)) = joinSp ws := by
  rcases ws with _ | ⟨w₀, rest⟩
  · rfl
  have hful : ∀ c ∈ joinSp (w₀ :: rest), pyLower c = c ∧ nfkdChar c = [c] ∧
      isCombining c = false ∧
      (pyIsAlnum c || pyIsSpace c || c == '-' || c == '_') = true := by
    intro c hc
    rcases mem_joinSp hc with hc' | ⟨w, hw, hcw⟩
    · subst hc'
      exact ⟨by decide, by decide, by decide, by decide⟩
    · exact hchar w hw c hcw
  have h1 : (joinSp (w₀ :: rest)).isEmpty = false := by
    rcases hd : joinSp (w₀ :: rest) with _ | _
    · exact absurd hd (joinSp_ne_nil (hwords w₀ (by simp)).1)
    · rfl
  have h2 : pyStrip (joinSp (w₀ :: rest)) = joinSp (w₀ :: rest) :=
    pyStrip_joinSp hwords
  have h3 : (joinSp (w₀ :: rest)).map pyLower = joinSp (w₀ :: rest) :=
    map_id_of_fix (fun c hc => (hful c hc).1)
  have h4 : (joinSp (w₀ :: rest)).flatMap nfkdChar = joinSp (w₀ :: rest) :=
    flatMap_id_of_fix (fun c hc => (hful c hc).2.1)
  have h5 : (joinSp (w₀ :: rest)).filter (fun d => !isCombining d) =
      joinSp (w₀ :: rest) :=
    List.filter_eq_self.mpr (fun c hc => by simp [(hful c hc).2.2.1])
  have h6 : punctFold (joinSp (w₀ :: rest)) = joinSp (w₀ :: rest) := by
    unfold punctFold
    exact map_id_of_fix (fun c hc => by rw [if_pos (hful c hc).2.2.2])
  have h7 : splitWs (joinSp (w₀ :: rest)) = w₀ :: rest := splitWs_joinSp hwords
  simp only [_normalize_name, h1, Bool.false_eq_true, if_false]
  rw [h2, h3, h4, h5, h6, h7]

/-- C5: the name-normalization function of the backend is total, returns the
empty string for empty or absent input, and is idempotent. -/
theorem normalize_total_idempotent :
    _normalize_name none = [] ∧ _normalize_name (some []) = [] ∧
    ∀ l : List Char,
      _normalize_name (some (_normalize_name (some l))) = _normalize_name (some l) := by
  refine ⟨rfl, rfl, ?_⟩
  intro l
  by_cases hl : l.isEmpty
  · have h0 : _normalize_name (some l) = [] := by simp [_normalize_name, hl]
    rw [h0]
    rfl
  · have hy : _normalize_name (some l) =
        joinSp (splitWs (punctFold ((((pyStrip l).map pyLower).flatMap
          nfkdChar).filter (fun d => !isCombining d)))) := by
      simp only [_normalize_name]
      rw [if_neg hl]
    rw [hy]
    apply normalize_fix_of_words
    · exact splitWs_words
    · intro w hw c hcw
      have hnsp : pyIsSpace c = false := (splitWs_words w hw).2 c hcw
      have hcz := splitWs_mem w hw c hcw
      unfold punctFold at hcz
      rcases List.mem_map.mp hcz with ⟨c₀, hc₀, hpf⟩
      by_cases hcond : (pyIsAlnum c₀ || pyIsSpace c₀ || c₀ == '-' || c₀ == '_') = true
      · simp only [hcond, if_true] at hpf
        subst hpf
        rw [List.mem_filter] at hc₀
        rcases hc₀ with ⟨hmem3, hcombB⟩
        have hcomb : isCombining c₀ = false := by simpa using hcombB
        rcases List.mem_flatMap.mp hmem3 with ⟨b, hb, hcb⟩
        rcases List.mem_map.mp hb with ⟨a, _, hba⟩
        subst hba
        have hgood := charFold_good (c := a) (d := c₀)
          (List.mem_filter.mpr ⟨hcb, by simp [hcomb]⟩)
        exact ⟨hgood.1, hgood.2, hcomb, hcond⟩
      · have hcond' :
            (pyIsAlnum c₀ || pyIsSpace c₀ || c₀ == '-' || c₀ == '_') = false := by
          simpa using hcond
        rw [hcond'] at hpf
        simp only [Bool.false_eq_true, if_false] at hpf
        rw [← hpf] at hnsp
        simp [pyIsSpace] at hnsp

theorem isEmpty_false_of_ne {β : Type} {l : List β} (h : l ≠ []) :
    l.isEmpty = false := by
  rcases l with _ | _
  · exact absurd rfl h
  · rfl

/-- Lexicographic comparison of character lists by code point, modelling
Python string comparison. -/
def lexLt : List Char → List Char → Bool
  | [], [] => false
  | [], _ :: _ => true
  | _ :: _, [] => false
  | a :: as, b :: bs => if a < b then true else if b < a then false else lexLt as bs

/-- Model of SequenceMatcher find longest match on the slice a[alo:ahi] versus
b[blo:bhi], with no junk (isjunk is None and the autojunk heuristic never
fires on the short strings involved): the dynamic program over rows i keeps,
for each column j, the length of the longest common run ending at (i, j), and
the first strictly longer run wins. -/
def flm (a b : List Char) (alo ahi blo bhi : Nat) : Nat × Nat × Nat :=
  ((List.range' alo (ahi - alo)).foldl
    (fun (st : (Nat → Nat) × (Nat × Nat × Nat)) i =>
      let ai := a.getD i (Char.ofNat 0)
      let js := (List.range bhi).filter
        (fun j => decide (blo ≤ j) && (b.getD j (Char.ofNat 0) == ai))
      js.foldl
        (fun (st2 : (Nat → Nat) × (Nat × Nat × Nat)) j =>
          let k := (if j = 0 then 0 else st.1 (j - 1)) + 1
          let best := st2.2
          let best' := if best.2.2 < k then (i + 1 - k, j + 1 - k, k) else best
          (fun x => if x = j then k else st2.1 x, best'))
        ((fun _ => 0), st.2))
    ((fun _ => 0), (alo, blo, 0))).2

/-- Total size of the matching blocks found by the recursive splitting of
SequenceMatcher get matching blocks; the fuel argument bounds the recursion
depth and is initialised to more than the total interval size, which each
split strictly decreases. -/
def mtFuel : Nat → List Char → List Char → Nat → Nat → Nat → Nat → Nat
  | 0, _, _, _, _, _, _ => 0
  | Nat.succ fuel, a, b, alo, ahi, blo, bhi =>
    let r := flm a b alo ahi blo bhi
    if r.2.2 = 0 then 0
    else r.2.2 + mtFuel fuel a b alo r.1 blo r.2.1 +
      mtFuel fuel a b (r.1 + r.2.2) ahi (r.2.1 + r.2.2) bhi

def matchingSize (a b : List Char) : Nat :=
  mtFuel (a.length + b.length + 1) a b 0 a.length 0 b.length

/-- Model of SequenceMatcher ratio as an exact rational: twice the total
matched size over the total length, and 1 on two empty sequences. -/
def ratioQ (a b : List Char) : ℚ :=
  if a.length + b.length = 0 then 1
  else (2 * matchingSize a b : ℚ) / ((a.length + b.length : Nat) : ℚ)

/-- Model of difflib get close matches: keep the candidates whose ratio
against the word reaches the cutoff (the quick-ratio prefilters are upper
bounds of ratio, so they drop nothing the final test keeps), rank them as the
nlargest call does on score and candidate pairs, namely a stable descending
sort by score with ties broken by the larger string, and return the first n
candidates. -/
def get_close_matches (word : List Char) (possibilities : List (List Char))
    (n : Nat) (cutoff : ℚ) : List (List Char) :=
  let scored := possibilities.filterMap (fun x =>
    if cutoff ≤ ratioQ x word then some (ratioQ x word, x) else none)
  let ranked := scored.mergeSort (fun p q =>
    if p.1 = q.1 then !lexLt p.2 q.2 else decide (q.1 < p.1))
  (ranked.take n).map (fun p => p.2)

/-- A reservation record as seen by the search endpoint: the nombre field
(absent in some records) and the rest of the record as opaque payload. -/
structure RRec (α : Type) where
  nombre : Option (List Char)
  payload : α
deriving DecidableEq

/-- Normalized name of a record, as the backend computes it from the nombre
field. -/
def normName {α : Type} (r : RRec α) : List Char := _normalize_name r.nombre

/-- Model of the Python substring test on character lists. -/
def containsSub (s sub : List Char) : Bool :=
  (List.range (s.length + 1)).any (fun i => (s.drop i).take sub.length == sub)

/-- Exact tier of the search endpoint, line 168 of eco_guia_backend.py. -/
def exactTier {α : Type} (rs : List (RRec α)) (nq : List Char) : List (RRec α) :=
  rs.filter (fun r => normName r == nq)

/-- Substring tier of the search endpoint, line 173 of eco_guia_backend.py. -/
def containsTier {α : Type} (rs : List (RRec α)) (nq : List Char) : List (RRec α) :=
  rs.filter (fun r => containsSub (normName r) nq)

/-- Fuzzy tier of the search endpoint, lines 177 to 185 of
eco_guia_backend.py: close matches over the normalized names, each matched
name resolved back to the first record bearing it. -/
def fuzzyTier {α : Type} (rs : List (RRec α)) (nq : List Char) : List (RRec α) :=
  (get_close_matches nq (rs.map normName) 5 (3 / 5)).filterMap
    (fun m => rs.find? (fun r => normName r == m))

/-- Normalized form of the stripped query string. -/
def normQuery (q : List Char) : List Char := _normalize_name (some (pyStrip q))

/-- Model of the api reservas handler, lines 161 to 187 of
eco_guia_backend.py. -/
def api_reservas {α : Type} (reservas_list : List (RRec α)) (q : List Char) :
    List (RRec α) :=
  let qs := pyStrip q
  if qs.isEmpty then []
  else
    let nq := _normalize_name (some qs)
    let exact := exactTier reservas_list nq
    if !exact.isEmpty then exact.take 5
    else
      let contains := containsTier reservas_list nq
      if !contains.isEmpty then contains.take 5
      else (fuzzyTier reservas_list nq).take 5

theorem api_empty_query {α : Type} (rs : List (RRec α)) (q : List Char)
    (h : pyStrip q = []) : api_reservas rs q = [] := by
  simp only [api_reservas]
  rw [if_pos (by rw [h]; rfl)]

theorem api_exact {α : Type} (rs : List (RRec α)) (q : List Char)
    (h : pyStrip q ≠ []) (hex : exactTier rs (normQuery q) ≠ []) :
    api_reservas rs q = (exactTier rs (normQuery q)).take 5 := by
  simp only [api_reservas, normQuery] at *
  rw [if_neg (by simp [isEmpty_false_of_ne h]),
    if_pos (by simp [isEmpty_false_of_ne hex])]

theorem api_contains {α : Type} (rs : List (RRec α)) (q : List Char)
    (h : pyStrip q ≠ []) (hex : exactTier rs (normQuery q) = [])
    (hcon : containsTier rs (normQuery q) ≠ []) :
    api_reservas rs q = (containsTier rs (normQuery q)).take 5 := by
  simp only [api_reservas, normQuery] at *
  rw [if_neg (by simp [isEmpty_false_of_ne h]), if_neg (by simp [hex]),
    if_pos (by simp [isEmpty_false_of_ne hcon])]

theorem api_fuzzy {α : Type} (rs : List (RRec α)) (q : List Char)
    (h : pyStrip q ≠ []) (hex : exactTier rs (normQuery q) = [])
    (hcon : containsTier rs (normQuery q) = []) :
    api_reservas rs q = (fuzzyTier rs (normQuery q)).take 5 := by
  simp only [api_reservas, normQuery] at *
  rw [if_neg (by simp [isEmpty_false_of_ne h]), if_neg (by simp [hex]),
    if_neg (by simp [hcon])]

/-- C2: the search endpoint resolves in three short-circuiting tiers: an
empty trimmed query yields the empty result; otherwise the exact tier
returns the first up-to-5 records whose normalized nombre equals the
normalized query; failing that, the substring tier returns the first
up-to-5 records whose normalized nombre contains it; failing that, the
fuzzy tier runs, and an empty fuzzy result yields the empty sequence. -/
theorem search_tiers_spec (α : Type) (rs : List (RRec α)) (q : List Char) :
    (pyStrip q = [] → api_reservas rs q = []) ∧
    (pyStrip q ≠ [] →
      (exactTier rs (normQuery q) ≠ [] →
        api_reservas rs q = (exactTier rs (normQuery q)).take 5) ∧
      (exactTier rs (normQuery q) = [] → containsTier rs (normQuery q) ≠ [] →
        api_reservas rs q = (containsTier rs (normQuery q)).take 5) ∧
      (exactTier rs (normQuery q) = [] → containsTier rs (normQuery q) = [] →
        api_reservas rs q = (fuzzyTier rs (normQuery q)).take 5) ∧
      (exactTier rs (normQuery q) = [] → containsTier rs (normQuery q) = [] →
        fuzzyTier rs (normQuery q) = [] → api_reservas rs q = [])) := by
  refine ⟨api_empty_query rs q, fun hq => ⟨?_, ?_, ?_, ?_⟩⟩
  · exact api_exact rs q hq
  · exact api_contains rs q hq
  · exact api_fuzzy rs q hq
  · intro hex hcon hfz
    rw [api_fuzzy rs q hq hex hcon, hfz]
    rfl

def reservaA : RRec Nat := RRec.mk (some ['a']) 0

theorem search_tiers_spec_witness :
    api_reservas [reservaA] ['a'] = (exactTier [reservaA] (normQuery ['a'])).take 5 :=
  ((search_tiers_spec Nat [reservaA] ['a']).2 (by decide)).1 (by decide)

/-- C3: when the exact and substring tiers are empty, the search result is
the fuzzy tier, namely the close matches over the normalized names with at
most 5 results and cutoff 0.6, each matched normalized candidate resolved
back to the first record in table order whose normalized nombre equals it;
consequently every record in the result is the first record of the table
bearing its normalized nombre, so among records sharing one normalized
nombre only the first can appear. -/
theorem search_fuzzy_first_record_spec (α : Type) (rs : List (RRec α))
    (q : List Char) (h1 : pyStrip q ≠ [])
    (h2 : exactTier rs (normQuery q) = [])
    (h3 : containsTier rs (normQuery q) = []) :
    api_reservas rs q =
      ((get_close_matches (normQuery q) (rs.map normName) 5 (3 / 5)).filterMap
        (fun m => rs.find? (fun r => normName r == m))).take 5 ∧
    ∀ r ∈ api_reservas rs q,
      rs.find? (fun x => normName x == normName r) = some r := by
  have hapi := api_fuzzy rs q h1 h2 h3
  refine ⟨hapi, ?_⟩
  intro r hr
  rw [hapi] at hr
  have hr' := List.mem_of_mem_take hr
  unfold fuzzyTier at hr'
  rcases List.mem_filterMap.mp hr' with ⟨m, _, hfind⟩
  have hpred := List.find?_some hfind
  have hm : normName r = m := by simpa using hpred
  rw [← hm] at hfind
  exact hfind

def reservaOta : RRec Nat :=
  RRec.mk (some ['o', 't', 'a', 'm', 'e', 'n', 'd', 'i']) 0

def queryOta : List Char := ['o', 't', 'a', 'm', 'e', 'n', 'd', 'y']

theorem search_fuzzy_first_record_spec_witness :
    api_reservas [reservaOta] queryOta =
      ((get_close_matches (normQuery queryOta) ([reservaOta].map normName) 5
        (3 / 5)).filterMap
        (fun m => [reservaOta].find? (fun r => normName r == m))).take 5 :=
  (search_fuzzy_first_record_spec Nat [reservaOta] queryOta
    (by decide) (by decide) (by decide)).1

/-- C4: the search endpoint never returns more than 5 records, whatever the
table and whichever tier produced the result. -/
theorem search_length_le_five (α : Type) (rs : List (RRec α)) (q : List Char) :
    (api_reservas rs q).length ≤ 5 := by
  by_cases h : pyStrip q = []
  · rw [api_empty_query rs q h]
    simp
  · by_cases hex : exactTier rs (normQuery q) = []
    · by_cases hcon : containsTier rs (normQuery q) = []
      · rw [api_fuzzy rs q h hex hcon]
        simp [List.length_take]
      · rw [api_contains rs q h hex hcon]
        simp [List.length_take]
    · rw [api_exact rs q h hex]
      simp [List.length_take]

theorem containsSub_nil (s : List Char) : containsSub s [] = true := by
  unfold containsSub
  rw [List.any_eq_true]
  exact ⟨0, by simp, by simp⟩

/-- C10 amended: a non-empty-after-trimming query whose normalized form is
empty yields a non-empty result on a non-empty table; when no record has an
empty normalized nombre the substring tier returns the first up-to-5 records
of the table, and when some records do, the exact tier returns the first
up-to-5 of those records instead. -/
theorem search_empty_normalized_nonempty (α : Type) (rs : List (RRec α))
    (q : List Char) (h0 : rs ≠ []) (h1 : pyStrip q ≠ [])
    (h2 : normQuery q = []) :
    api_reservas rs q ≠ [] ∧
    ((∀ r ∈ rs, normName r ≠ []) → api_reservas rs q = rs.take 5) ∧
    ((∃ r ∈ rs, normName r = []) →
      api_reservas rs q = (rs.filter (fun r => normName r == [])).take 5) := by
  have hcontains : containsTier rs (normQuery q) = rs := by
    rw [h2]
    unfold containsTier
    exact List.filter_eq_self.mpr (fun r _ => containsSub_nil (normName r))
  have htake : rs.take 5 ≠ [] := by
    rw [Ne, List.take_eq_nil_iff]
    simp [h0]
  refine ⟨?_, ?_, ?_⟩
  · by_cases hex : exactTier rs (normQuery q) = []
    · rw [api_contains rs q h1 hex (by rw [hcontains]; exact h0), hcontains]
      exact htake
    · rw [api_exact rs q h1 hex, Ne, List.take_eq_nil_iff]
      simp [hex]
  · intro hall
    have hex : exactTier rs (normQuery q) = [] := by
      rw [h2]
      unfold exactTier
      rw [List.filter_eq_nil_iff]
      intro r hr
      simp [hall r hr]
    rw [api_contains rs q h1 hex (by rw [hcontains]; exact h0), hcontains]
  · rintro ⟨r, hr, hnil⟩
    have hex : exactTier rs (normQuery q) ≠ [] := by
      rw [h2]
      unfold exactTier
      intro hno
      have := List.filter_eq_nil_iff.mp hno r hr
      simp [hnil] at this
    rw [api_exact rs q h1 hex, h2]
    rfl

def reservaB : RRec Nat := RRec.mk (some ['!']) 1

/-- C10 counterexample: on the table holding reservaA then reservaB and the
query consisting of one exclamation mark, the exact tier fires (the record
named by a bang normalizes to the empty string) and the result is not the
first up-to-5 records of the table. -/
theorem search_empty_normalized_prefix_false :
    ¬(api_reservas [reservaA, reservaB] ['!'] =
      ([reservaA, reservaB] : List (RRec Nat)).take 5) := by
  decide

theorem search_empty_normalized_nonempty_witness :
    api_reservas [reservaA, reservaB] ['!'] ≠ [] :=
  (search_empty_normalized_nonempty Nat [reservaA, reservaB] ['!']
    (by decide) (by decide) (by decide)).1

/-- An option attached to a dialogue node; every field is read with a
defaulting get in the source, so each may be absent. -/
structure BotOption where
  id : Option String
  label : Option String
  next_node_id : Option String
deriving DecidableEq

/-- A dialogue node as the backend reads it: the id is accessed with plain
indexing (it must exist), the other fields with defaulting gets. -/
structure DialogueNode where
  id : String
  type : Option String
  message : Option String
  options : List BotOption
  next_node_id : Option String
deriving DecidableEq

/-- Model of the nodes index built at line 19 of eco_guia_backend.py as a
dict comprehension over the definition's node list: a later node with the
same id overwrites an earlier one. -/
def lookupNode (defs : List DialogueNode) (i : String) : Option DialogueNode :=
  defs.foldl (fun acc n => if n.id = i then some n else acc) none

/-- Error kinds of the dialogue engine, naming the distinct raise sites of
resolve next node per the specification's taxonomy: a missing option id is an
input error, a bad option or option target on a menu or response node is a
not-found error, and a bad successor on an input node is a configuration
error. -/
inductive ResolveErr
  | inputErr
  | notFound
  | configErr
deriving DecidableEq

/-- Model of resolve_next_node, lines 73 to 119 of eco_guia_backend.py.  The
falsy tests of the source on option_id and on the scanned next_node_id
cover both an absent value and an empty string. -/
def resolve_next_node (defs : List DialogueNode) (current_node_id : String)
    (option_id : Option String) (user_input : Option String) :
    Except ResolveErr DialogueNode :=
  match lookupNode defs current_node_id with
  | none => .error .notFound
  | some current =>
    if current.type = some "menu" ∨ current.type = some "response" then
      if option_id = none ∨ option_id = some "" then .error .inputErr
      else
        match (current.options.find? (fun o => o.id == option_id)).bind
            (fun o => o.next_node_id) with
        | none => .error .notFound
        | some t =>
          if t = "" then .error .notFound
          else
            match lookupNode defs t with
            | none => .error .notFound
            | some nx => .ok nx
    else if current.type = some "input" then
      match current.next_node_id with
      | none => .error .configErr
      | some t =>
        if t = "" then .error .configErr
        else
          match lookupNode defs t with
          | none => .error .configErr
          | some nx => .ok nx
    else if current.type = some "end" then .ok current
    else .ok ((current.next_node_id.bind (lookupNode defs)).getD current)

theorem find?_of_decomp {β : Type} (p : β → Bool) (pre : List β) (o : β)
    (post : List β) (hpre : ∀ x ∈ pre, p x = false) (ho : p o = true) :
    (pre ++ o :: post).find? p = some o := by
  induction pre with
  | nil => simp [List.find?, ho]
  | cons a l ih =>
    have ha := hpre a (List.mem_cons_self a l)
    rw [List.cons_append, List.find?_cons, ha]
    exact ih (fun x hx => hpre x (List.mem_cons_of_mem a hx))

/-- C1: on a menu or response node, resolve fails with an input error when
the option id is absent or empty; otherwise the options are scanned in
order, the first option whose id equals the supplied one is selected, and
the call fails with a not-found error when no option matches, when the
selected option's next_node_id is absent or empty, or when it names no node
of the graph, and returns the node named by it on success. -/
theorem resolve_menu_response_spec (defs : List DialogueNode)
    (currentId : String) (optId uinp : Option String) (node : DialogueNode)
    (hn : lookupNode defs currentId = some node)
    (ht : node.type = some "menu" ∨ node.type = some "response") :
    ((optId = none ∨ optId = some "") →
      resolve_next_node defs currentId optId uinp = .error .inputErr) ∧
    (∀ s : String, optId = some s → s ≠ "" →
      ((∀ o ∈ node.options, ¬o.id = some s) →
        resolve_next_node defs currentId optId uinp = .error .notFound) ∧
      (∀ pre o post, node.options = pre ++ o :: post →
        (∀ o' ∈ pre, ¬o'.id = some s) → o.id = some s →
        ((o.next_node_id = none ∨ o.next_node_id = some "") →
          resolve_next_node defs currentId optId uinp = .error .notFound) ∧
        (∀ t : String, o.next_node_id = some t → t ≠ "" →
          (lookupNode defs t = none →
            resolve_next_node defs currentId optId uinp = .error .notFound) ∧
          (∀ nx, lookupNode defs t = some nx →
            resolve_next_node defs currentId optId uinp = .ok nx)))) := by
  constructor
  · intro h
    simp only [resolve_next_node, hn, if_pos ht, if_pos h]
  · intro s hs hsne
    subst hs
    have hnotfalsy : ¬(some s = none ∨ some s = some "") := by
      simp [hsne]
    constructor
    · intro hall
      have hfind : node.options.find? (fun o => o.id == some s) = none := by
        rw [List.find?_eq_none]
        intro o ho
        simpa using hall o ho
      simp only [resolve_next_node, hn, if_pos ht, if_neg hnotfalsy, hfind,
        Option.none_bind]
    · intro pre o post hdec hpre ho
      have hfind : node.options.find? (fun o => o.id == some s) = some o := by
        rw [hdec]
        exact find?_of_decomp _ pre o post
          (fun x hx => by simpa using hpre x hx) (by simpa using ho)
      constructor
      · rintro (hnn | hnn)
        · simp only [resolve_next_node, hn, if_pos ht, if_neg hnotfalsy, hfind,
            Option.some_bind, hnn]
        · simp only [resolve_next_node, hn, if_pos ht, if_neg hnotfalsy, hfind,
            Option.some_bind, hnn, if_pos rfl, if_true]
      · intro t hnn htne
        constructor
        · intro hl
          simp only [resolve_next_node, hn, if_pos ht, if_neg hnotfalsy, hfind,
            Option.some_bind, hnn, if_neg htne, hl]
        · intro nx hl
          simp only [resolve_next_node, hn, if_pos ht, if_neg hnotfalsy, hfind,
            Option.some_bind, hnn, if_neg htne, hl]

def nodeB : DialogueNode := DialogueNode.mk "B" (some "end") none [] none

def optionOne : BotOption := BotOption.mk (some "1") (some "go") (some "B")

def nodeA : DialogueNode := DialogueNode.mk "A" (some "menu") none [optionOne] none

theorem resolve_menu_response_spec_witness :
    resolve_next_node [nodeA, nodeB] "A" (some "1") none = .ok nodeB ∧
    resolve_next_node [nodeA, nodeB] "A" none none = .error .inputErr := by
  constructor
  · exact ((((resolve_menu_response_spec [nodeA, nodeB] "A" (some "1") none
      nodeA (by decide) (Or.inl (by decide))).2 "1" rfl (by decide)).2
      [] optionOne [] (by decide) (by simp) (by decide)).2 "B" (by decide)
      (by decide)).2 nodeB (by decide)
  · exact (resolve_menu_response_spec [nodeA, nodeB] "A" none none
      nodeA (by decide) (Or.inl (by decide))).1 (Or.inl rfl)

/-- C6: on a node whose type is neither menu, response, input nor end,
including an absent type, resolve follows the node's own next_node_id when
it names a node of the graph, returns the node itself unchanged when that
field is absent or names no node, and never fails. -/
theorem resolve_fallback_spec (defs : List DialogueNode) (currentId : String)
    (optId uinp : Option String) (node : DialogueNode)
    (hn : lookupNode defs currentId = some node)
    (h1 : node.type ≠ some "menu") (h2 : node.type ≠ some "response")
    (h3 : node.type ≠ some "input") (h4 : node.type ≠ some "end") :
    (∀ t nx, node.next_node_id = some t → lookupNode defs t = some nx →
      resolve_next_node defs currentId optId uinp = .ok nx) ∧
    (node.next_node_id = none →
      resolve_next_node defs currentId optId uinp = .ok node) ∧
    (∀ t, node.next_node_id = some t → lookupNode defs t = none →
      resolve_next_node defs currentId optId uinp = .ok node) ∧
    (∃ r, resolve_next_node defs currentId optId uinp = .ok r) := by
  have hor : ¬(node.type = some "menu" ∨ node.type = some "response") := by
    simp [h1, h2]
  have hbase : resolve_next_node defs currentId optId uinp =
      .ok ((node.next_node_id.bind (lookupNode defs)).getD node) := by
    simp only [resolve_next_node, hn, if_neg hor, if_neg h3, if_neg h4]
  refine ⟨?_, ?_, ?_, ?_⟩
  · intro t nx hnn hl
    rw [hbase, hnn]
    simp [hl]
  · intro hnn
    rw [hbase, hnn]
    rfl
  · intro t hnn hl
    rw [hbase, hnn]
    simp [hl]
  · exact ⟨_, hbase⟩

def nodeFall : DialogueNode := DialogueNode.mk "F" (some "mystery") none [] (some "B")

theorem resolve_fallback_spec_witness :
    resolve_next_node [nodeFall, nodeB] "F" none none = .ok nodeB := by
  exact (resolve_fallback_spec [nodeFall, nodeB] "F" none none nodeFall
    (by decide) (by decide) (by decide) (by decide) (by decide)).1
    "B" nodeB (by decide) (by decide)

theorem foldl_lookup_skip (i : String) (post : List DialogueNode)
    (acc : Option DialogueNode) (h : ∀ m ∈ post, m.id ≠ i) :
    post.foldl (fun acc n => if n.id = i then some n else acc) acc = acc := by
  induction post generalizing acc with
  | nil => rfl
  | cons m rest ih =>
    rw [List.foldl_cons, if_neg (h m (List.mem_cons_self m rest))]
    exact ih acc (fun x hx => h x (List.mem_cons_of_mem m hx))

def dupFirst : DialogueNode := DialogueNode.mk "dup" (some "menu") none [] none

def dupSecond : DialogueNode := DialogueNode.mk "dup" (some "end") none [] none

/-- C7 counterexample: when two distinct nodes share the id dup, the index
returns the second, later-loaded node, not the first-loaded one the claim
promises. -/
theorem nodes_index_first_wins_false :
    lookupNode [dupFirst, dupSecond] "dup" = some dupSecond ∧
    dupSecond ≠ dupFirst := by
  decide

/-- C7 amended: when the dialogue definition contains several nodes with the
same id, the index keeps the last-loaded one, as the dict comprehension
overwrites earlier entries: a lookup returns the node with that id that has
no later occurrence of the id after it. -/
theorem nodes_index_last_wins (pre post : List DialogueNode) (n : DialogueNode)
    (hpost : ∀ m ∈ post, m.id ≠ n.id) :
    lookupNode (pre ++ n :: post) n.id = some n := by
  unfold lookupNode
  rw [List.foldl_append, List.foldl_cons, if_pos rfl]
  exact foldl_lookup_skip n.id post (some n) hpost

theorem nodes_index_last_wins_witness :
    lookupNode [dupFirst, dupSecond] dupSecond.id = some dupSecond :=
  nodes_index_last_wins [dupFirst] [] dupSecond (by simp)

/-- Fields of the external dialogue definition that the load path reads: the
nodes collection and the start node id, either possibly absent. -/
structure BotDefinition where
  nodes : Option (List DialogueNode)
  start_node_id : Option String

/-- Failure of the module-level load: indexing the parsed definition with
the nodes key raises when the collection is absent. -/
inductive LoadErr
  | missingNodes
deriving DecidableEq

/-- Model of the module-level load at lines 14 to 20 of eco_guia_backend.py:
indexing the definition with the nodes key fails when the collection is
absent, aborting startup; the nodes index is built and the start node id
defaults to inicio_menu; nothing else is validated at load time. -/
def load_dialogue_graph (d : BotDefinition) :
    Except LoadErr (List DialogueNode × String) :=
  match d.nodes with
  | none => .error .missingNodes
  | some ns => .ok (ns, d.start_node_id.getD "inicio_menu")

/-- Failure of the start endpoint: the start node is missing from the index. -/
inductive StartErr
  | startNotFound
deriving DecidableEq

/-- Model of the api start handler, lines 137 to 143 of eco_guia_backend.py:
the start node is looked up per request, and a missing start node yields an
error response rather than a load-time failure. -/
def api_start (g : List DialogueNode × String) : Except StartErr DialogueNode :=
  match lookupNode g.1 g.2 with
  | none => .error .startNotFound
  | some n => .ok n

def defBadStart : BotDefinition :=
  BotDefinition.mk (some [nodeA, nodeB]) (some "zzz")

/-- C8 counterexample: loading a definition whose start_node_id matches no
loaded node succeeds, contrary to the claim that it fails at load time; the
failure only surfaces when the start endpoint is called. -/
theorem load_bad_start_succeeds :
    load_dialogue_graph defBadStart = .ok ([nodeA, nodeB], "zzz") ∧
    api_start ([nodeA, nodeB], "zzz") = .error .startNotFound := by
  constructor
  · rfl
  · rfl

/-- C8 amended: loading fails when the definition has no nodes collection;
a start_node_id (or its default) matching no loaded node does not make the
load fail, which succeeds, and instead every call of the start endpoint
fails at request time, while a resolvable start id makes it succeed. -/
theorem load_validation_spec (d : BotDefinition) :
    (d.nodes = none → load_dialogue_graph d = .error .missingNodes) ∧
    (∀ ns, d.nodes = some ns →
      load_dialogue_graph d = .ok (ns, d.start_node_id.getD "inicio_menu") ∧
      (lookupNode ns (d.start_node_id.getD "inicio_menu") = none →
        api_start (ns, d.start_node_id.getD "inicio_menu") =
          .error .startNotFound) ∧
      (∀ n, lookupNode ns (d.start_node_id.getD "inicio_menu") = some n →
        api_start (ns, d.start_node_id.getD "inicio_menu") = .ok n)) := by
  constructor
  · intro h
    simp [load_dialogue_graph, h]
  · intro ns h
    refine ⟨by simp [load_dialogue_graph, h], ?_, ?_⟩
    · intro hl
      simp [api_start, hl]
    · intro n hl
      simp [api_start, hl]

theorem load_validation_spec_witness :
    load_dialogue_graph defBadStart =
      .ok ([nodeA, nodeB], defBadStart.start_node_id.getD "inicio_menu") :=
  ((load_validation_spec defBadStart).2 [nodeA, nodeB] rfl).1

/-- Whether a string starts with a whitespace character; the empty string
does not. -/
def headIsSpace : List Char → Bool
  | [] => false
  | c :: _ => pyIsSpace c

/-- Model of the regex substitution collapsing every maximal whitespace run
into a single space, with no trimming: the last whitespace character of a
run emits the space. -/
def collapseWs : List Char → List Char
  | [] => []
  | c :: cs =>
    if pyIsSpace c then
      if headIsSpace cs then collapseWs cs else ' ' :: collapseWs cs
    else c :: collapseWs cs

/-- Characters the unifier's normalizer turns into spaces before the word
filter: brackets and double quotes. -/
def bracketChars : List Char :=
  ['(', ')', '[', ']', '\x7b', '\x7d', '<', '>', '\"']

/-- Word-character predicate modelling the regex word class on the covered
repertoire. -/
def pyIsWord (c : Char) : Bool := pyIsAlnum c || c == '_'

/-- Model of normalize_name at lines 19 to 33 of fix_fill_reservas.py: strip,
map the literal strings nan, none, null and the empty string to empty, NFKD
and combining-mark removal on the unlowered text, brackets to spaces, then
every character outside word, whitespace and hyphen to a space, whitespace
runs collapsed, and finally lowercase and strip.  The non-string guard of
the source lives in the caller model, which only passes strings here. -/
def normalize_name (s : List Char) : List Char :=
  let s1 := pyStrip s
  if s1.map pyLower = "nan".data ∨ s1.map pyLower = "none".data ∨
      s1.map pyLower = "null".data ∨ s1.map pyLower = [] then []
  else
    let s2 := (s1.flatMap nfkdChar).filter (fun c => !isCombining c)
    let s3 := s2.map (fun c => if c ∈ bracketChars then ' ' else c)
    let s4 := s3.map (fun c =>
      if pyIsWord c || pyIsSpace c || c == '-' then c else ' ')
    let s5 := collapseWs s4
    pyStrip (s5.map pyLower)

/-- A JSON field value on a record: a string, or an opaque non-string
payload. -/
abbrev JVal (α : Type) : Type := String ⊕ α

/-- A record of the unified dataset as a field-to-value association in
insertion order, modelling a Python dict. -/
abbrev JRec (α : Type) : Type := List (String × JVal α)

/-- Dict read: the value stored at a key, if any. -/
def recGet {α : Type} (r : JRec α) (k : String) : Option (JVal α) :=
  (r.find? (fun kv => kv.1 == k)).map (fun kv => kv.2)

/-- Dict write: overwrite the value at an existing key in place, or append a
new key at the end. -/
def recSet {α : Type} (r : JRec α) (k : String) (v : JVal α) : JRec α :=
  if r.any (fun kv => kv.1 == k) then
    r.map (fun kv => if kv.1 == k then (k, v) else kv)
  else r ++ [(k, v)]

/-- Apply one enrichment mapping entry to a record, modelling the loop
writing each field of the entry into the record dict. -/
def applyEntry {α : Type} (r : JRec α) (fs : List (String × String)) : JRec α :=
  fs.foldl (fun r kv => recSet r kv.1 (Sum.inl kv.2)) r

/-- The curated mapping of fix_fill_reservas.py: facility name to enrichment
fields, in insertion order. -/
abbrev Mapping : Type := List (String × List (String × String))

/-- Model of the norm to key index built at lines 393 to 397 of
fix_fill_reservas.py: normalized key to original key, keys with an empty
normalization skipped, a later key with the same normalization overwriting
the stored original key while keeping the first insertion position. -/
def buildNormToKey (mapping : Mapping) : List (List Char × String) :=
  mapping.foldl (fun acc kv =>
    let nk := normalize_name kv.1.data
    if nk = [] then acc
    else if acc.any (fun p => p.1 == nk) then
      acc.map (fun p => if p.1 == nk then (nk, kv.1) else p)
    else acc ++ [(nk, kv.1)]) []

/-- Which mapping entry, if any, the three-tier matching of the enrichment
loop at lines 402 to 437 of fix_fill_reservas.py selects for a record name:
exact key match, then match on normalized names, then the single best fuzzy
match with cutoff 0.75 over the normalized keys. -/
def matchEntry (mapping : Mapping) (name : String) :
    Option (String × List (String × String)) :=
  match mapping.find? (fun kv => kv.1 == name) with
  | some kv => some kv
  | none =>
    let nname := normalize_name name.data
    if nname = [] then none
    else
      let ntk := buildNormToKey mapping
      match ntk.find? (fun p => p.1 == nname) with
      | some p => mapping.find? (fun kv => kv.1 == p.2)
      | none =>
        match get_close_matches nname (ntk.map (fun p => p.1)) 1 (3 / 4) with
        | [] => none
        | m :: _ =>
          match ntk.find? (fun p => p.1 == m) with
          | some p => mapping.find? (fun kv => kv.1 == p.2)
          | none => none

/-- The nombre field of a record when it holds a string, modelling the
isinstance guard of the loop: an absent or non-string nombre yields none. -/
def nameOf {α : Type} (r : JRec α) : Option String :=
  match recGet r "nombre" with
  | some (Sum.inl name) => some name
  | _ => none

/-- One step of the enrichment loop on a single record: a record whose
nombre field holds a string matched by some tier gets that entry's fields
written and is flagged updated; any other record is returned unchanged and
flagged unmatched. -/
def enrichRecord {α : Type} (mapping : Mapping) (r : JRec α) : JRec α × Bool :=
  match (nameOf r).bind (fun name => matchEntry mapping name) with
  | some kv => (applyEntry r kv.2, true)
  | none => (r, false)

/-- The records list after the enrichment loop of fix_fill_reservas.py,
which is then written out unchanged in length and order. -/
def unifyRecords {α : Type} (mapping : Mapping) (records : List (JRec α)) :
    List (JRec α) :=
  records.map (fun r => (enrichRecord mapping r).1)

/-- The not-found report of the enrichment loop: the nombre value of every
record no tier matched, in order. -/
def unmatchedNames {α : Type} (mapping : Mapping) (records : List (JRec α)) :
    List (Option (JVal α)) :=
  records.filterMap (fun r =>
    if (enrichRecord mapping r).2 then none else some (recGet r "nombre"))

theorem find?_map_set {α : Type} (r : JRec α) (k : String) (v : JVal α) :
    (r.map (fun kv => if kv.1 == k then (k, v) else kv)).find?
        (fun kv => kv.1 == k) =
      if r.any (fun kv => kv.1 == k) then some (k, v) else none := by
  induction r with
  | nil => rfl
  | cons a l ih =>
    rw [List.map_cons, List.any_cons]
    by_cases ha : (a.1 == k) = true
    · rw [if_pos ha, List.find?_cons_of_pos (p := fun kv : String × JVal α => kv.1 == k) _
        (show (((k : String), v).1 == k) = true by simp)]
      rw [if_pos (by simp [ha])]
    · have ha' : (a.1 == k) = false := by simpa using ha
      rw [if_neg ha, List.find?_cons_of_neg (p := fun kv : String × JVal α => kv.1 == k) _ ha,
        ih, ha', Bool.false_or]

theorem find?_map_set_ne {α : Type} (r : JRec α) (k k' : String) (v : JVal α)
    (hne : k' ≠ k) :
    (r.map (fun kv => if kv.1 == k then (k, v) else kv)).find?
        (fun kv => kv.1 == k') = r.find? (fun kv => kv.1 == k') := by
  induction r with
  | nil => rfl
  | cons a l ih =>
    rw [List.map_cons]
    by_cases ha : (a.1 == k) = true
    · have ha' : a.1 = k := by simpa using ha
      have h2 : ¬((a.1 == k') = true) := by
        simp [ha']
        exact fun h => hne h.symm
      rw [if_pos ha,
        List.find?_cons_of_neg (p := fun kv : String × JVal α => kv.1 == k') _
          (show ¬((((k : String), v).1 == k') = true) by
            simp; exact fun h => hne h.symm),
        List.find?_cons_of_neg (p := fun kv : String × JVal α => kv.1 == k') _ h2, ih]
    · rw [if_neg ha]
      by_cases hk' : (a.1 == k') = true
      · rw [List.find?_cons_of_pos (p := fun kv : String × JVal α => kv.1 == k') _ hk',
          List.find?_cons_of_pos (p := fun kv : String × JVal α => kv.1 == k') _ hk']
      · rw [List.find?_cons_of_neg (p := fun kv : String × JVal α => kv.1 == k') _ hk',
          List.find?_cons_of_neg (p := fun kv : String × JVal α => kv.1 == k') _ hk', ih]

theorem recGet_recSet_same {α : Type} (r : JRec α) (k : String) (v : JVal α) :
    recGet (recSet r k v) k = some v := by
  unfold recSet recGet
  by_cases h : r.any (fun kv => kv.1 == k)
  · rw [if_pos h, find?_map_set, if_pos h]
    rfl
  · rw [if_neg h]
    have hnone : r.find? (fun kv => kv.1 == k) = none := by
      rw [List.find?_eq_none]
      intro x hx hpx
      exact h (List.any_eq_true.mpr ⟨x, hx, hpx⟩)
    rw [List.find?_append, hnone]
    simp

theorem recGet_recSet_ne {α : Type} (r : JRec α) (k k' : String) (v : JVal α)
    (hne : k' ≠ k) : recGet (recSet r k v) k' = recGet r k' := by
  unfold recSet recGet
  by_cases h : r.any (fun kv => kv.1 == k)
  · rw [if_pos h, find?_map_set_ne r k k' v hne]
  · rw [if_neg h, List.find?_append]
    have hone : ([((k : String), v)].find? (fun kv => kv.1 == k')) = none := by
      rw [List.find?_eq_none]
      intro x hx
      simp at hx
      subst hx
      simp
      exact fun h => hne h.symm
    rw [hone]
    simp

theorem applyEntry_cons {α : Type} (r : JRec α) (f : String × String)
    (rest : List (String × String)) :
    applyEntry r (f :: rest) = applyEntry (recSet r f.1 (Sum.inl f.2)) rest :=
  rfl

theorem applyEntry_frame {α : Type} (fs : List (String × String)) (r : JRec α)
    (k : String) (h : ∀ f ∈ fs, f.1 ≠ k) :
    recGet (applyEntry r fs) k = recGet r k := by
  induction fs generalizing r with
  | nil => rfl
  | cons f rest ih =>
    rw [applyEntry_cons,
      ih (recSet r f.1 (Sum.inl f.2))
        (fun g hg => h g (List.mem_cons_of_mem f hg))]
    exact recGet_recSet_ne r f.1 k (Sum.inl f.2)
      (Ne.symm (h f (List.mem_cons_self f rest)))

theorem applyEntry_write {α : Type} (fs : List (String × String)) (r : JRec α)
    (k : String) (h : ∃ f ∈ fs, f.1 = k) :
    ∃ f ∈ fs, f.1 = k ∧ recGet (applyEntry r fs) k = some (Sum.inl f.2) := by
  induction fs generalizing r with
  | nil =>
    rcases h with ⟨f, hf, _⟩
    simp at hf
  | cons f rest ih =>
    by_cases hrest : ∃ g ∈ rest, g.1 = k
    · rcases ih (recSet r f.1 (Sum.inl f.2)) hrest with ⟨g, hg, hgk, hval⟩
      exact ⟨g, List.mem_cons_of_mem f hg, hgk,
        by rw [applyEntry_cons]; exact hval⟩
    · rcases h with ⟨g, hgmem, hgk⟩
      rcases List.mem_cons.mp hgmem with hm | hm
      · have hfk : f.1 = k := by rw [← hm]; exact hgk
        refine ⟨f, List.mem_cons_self f rest, hfk, ?_⟩
        rw [applyEntry_cons]
        have hframe : ∀ f' ∈ rest, f'.1 ≠ k := by
          intro f' hf' heq
          exact hrest ⟨f', hf', heq⟩
        rw [applyEntry_frame rest _ k hframe, ← hfk]
        exact recGet_recSet_same r f.1 (Sum.inl f.2)
      · exact absurd ⟨g, hm, hgk⟩ hrest

theorem matchEntry_mem {mapping : Mapping} {name : String}
    {kv : String × List (String × String)}
    (h : matchEntry mapping name = some kv) : kv ∈ mapping := by
  unfold matchEntry at h
  cases h1 : mapping.find? (fun p => p.1 == name) with
  | some kv1 =>
    simp only [h1] at h
    cases h
    exact List.mem_of_find?_eq_some h1
  | none =>
    simp only [h1] at h
    by_cases h2 : normalize_name name.data = []
    · rw [if_pos h2] at h
      cases h
    · rw [if_neg h2] at h
      cases h3 : (buildNormToKey mapping).find?
          (fun p => p.1 == normalize_name name.data) with
      | some p =>
        simp only [h3] at h
        exact List.mem_of_find?_eq_some h
      | none =>
        simp only [h3] at h
        cases h4 : get_close_matches (normalize_name name.data)
            ((buildNormToKey mapping).map (fun p => p.1)) 1 (3 / 4) with
        | nil =>
          simp only [h4] at h
          cases h
        | cons m ms =>
          simp only [h4] at h
          cases h5 : (buildNormToKey mapping).find? (fun p => p.1 == m) with
          | some p =>
            simp only [h5] at h
            exact List.mem_of_find?_eq_some h
          | none =>
            simp only [h5] at h
            cases h

theorem enrichRecord_eq_of_none {α : Type} {mapping : Mapping} {r : JRec α}
    (h : (nameOf r).bind (fun name => matchEntry mapping name) = none) :
    enrichRecord mapping r = (r, false) := by
  unfold enrichRecord
  rw [h]

theorem enrichRecord_eq_of_some {α : Type} {mapping : Mapping} {r : JRec α}
    {kv : String × List (String × String)}
    (h : (nameOf r).bind (fun name => matchEntry mapping name) = some kv) :
    enrichRecord mapping r = (applyEntry r kv.2, true) := by
  unfold enrichRecord
  rw [h]

theorem enrichRecord_unmatched {α : Type} (mapping : Mapping) (r : JRec α)
    (h : (enrichRecord mapping r).2 = false) :
    (enrichRecord mapping r).1 = r := by
  cases hb : (nameOf r).bind (fun name => matchEntry mapping name) with
  | none => rw [enrichRecord_eq_of_none hb]
  | some kv =>
    rw [enrichRecord_eq_of_some hb] at h
    simp at h

theorem enrichRecord_matched {α : Type} (mapping : Mapping) (r : JRec α)
    (h : (enrichRecord mapping r).2 = true) :
    ∃ kv ∈ mapping, (enrichRecord mapping r).1 = applyEntry r kv.2 := by
  cases hb : (nameOf r).bind (fun name => matchEntry mapping name) with
  | none =>
    rw [enrichRecord_eq_of_none hb] at h
    simp at h
  | some kv =>
    rcases Option.bind_eq_some.mp hb with ⟨name, _, hm⟩
    exact ⟨kv, matchEntry_mem hm, by rw [enrichRecord_eq_of_some hb]⟩

/-- C9: the unification step is non-destructive: the output list has the
same length as the input, a record no tier matches is returned unchanged at
its position and its nombre value is reported among the unmatched names, and
a matched record receives exactly the fields of some mapping entry, every
field outside that entry being read back unchanged and every field of the
entry reading back as the entry's written value. -/
theorem unify_nondestructive_spec (α : Type) (mapping : Mapping)
    (records : List (JRec α)) :
    (unifyRecords mapping records).length = records.length ∧
    ∀ i : Nat, i < records.length →
      ((enrichRecord mapping (records.getD i [])).2 = false →
        (unifyRecords mapping records).getD i [] = records.getD i [] ∧
        recGet (records.getD i []) "nombre" ∈ unmatchedNames mapping records) ∧
      ((enrichRecord mapping (records.getD i [])).2 = true →
        ∃ kv ∈ mapping,
          (∀ k : String, (∀ f ∈ kv.2, f.1 ≠ k) →
            recGet ((unifyRecords mapping records).getD i []) k =
              recGet (records.getD i []) k) ∧
          (∀ k : String, (∃ f ∈ kv.2, f.1 = k) →
            ∃ f ∈ kv.2, f.1 = k ∧
              recGet ((unifyRecords mapping records).getD i []) k =
                some (Sum.inl f.2))) := by
  refine ⟨List.length_map records _, ?_⟩
  intro i hi
  have hx : records[i]? = some (records.getD i []) := by
    rw [List.getElem?_eq_getElem hi, List.getD_eq_getElem?_getD,
      List.getElem?_eq_getElem hi]
    rfl
  have hget : (unifyRecords mapping records).getD i [] =
      (enrichRecord mapping (records.getD i [])).1 := by
    unfold unifyRecords
    rw [List.getD_eq_getElem?_getD, List.getElem?_map, hx]
    rfl
  have hmem : records.getD i [] ∈ records := by
    rw [List.getD_eq_getElem?_getD, List.getElem?_eq_getElem hi]
    exact List.getElem_mem hi
  constructor
  · intro hflag
    constructor
    · rw [hget]
      exact enrichRecord_unmatched mapping _ hflag
    · unfold unmatchedNames
      apply List.mem_filterMap.mpr
      exact ⟨records.getD i [], hmem, by rw [hflag]; rfl⟩
  · intro hflag
    rcases enrichRecord_matched mapping _ hflag with ⟨kv, hkv, heq⟩
    refine ⟨kv, hkv, ?_, ?_⟩
    · intro k hk
      rw [hget, heq]
      exact applyEntry_frame kv.2 _ k hk
    · intro k hk
      rw [hget, heq]
      exact applyEntry_write kv.2 _ k hk

def mapping₀ : Mapping := [("X", [("Horarios_de_visita", "h")])]

def record₀ : JRec Nat := [("nombre", Sum.inl "X"), ("area", Sum.inr 7)]

theorem unify_nondestructive_spec_witness :
    (unifyRecords mapping₀ [record₀]).length =
      ([record₀] : List (JRec Nat)).length ∧
    ∃ kv ∈ mapping₀,
      (∀ k : String, (∀ f ∈ kv.2, f.1 ≠ k) →
        recGet ((unifyRecords mapping₀ [record₀]).getD 0 []) k =
          recGet (([record₀] : List (JRec Nat)).getD 0 []) k) ∧
      (∀ k : String, (∃ f ∈ kv.2, f.1 = k) →
        ∃ f ∈ kv.2, f.1 = k ∧
          recGet ((unifyRecords mapping₀ [record₀]).getD 0 []) k =
            some (Sum.inl f.2)) :=
  ⟨(unify_nondestructive_spec Nat mapping₀ [record₀]).1,
   ((unify_nondestructive_spec Nat mapping₀ [record₀]).2 0 (by decide)).2
     (by decide)⟩
